/-
Verification development for the ABC-to-piano-roll compiler (converter.py).

The source is shallowly embedded: Python strings become `List Char`, the
regular expressions of the source are hand-compiled into equivalent
deterministic recursive matchers (the token classes of each regex are
pairwise disjoint, so the backtracking engine behaves like maximal munch),
Python `Fraction` arithmetic becomes `ℚ`, the mutable `Metadata` object
becomes explicit state passing, and every raising operation returns
`Except PyErr`.  `parse_tempo` is the one place where the source computes
with Python floats (`60 / int(bpm)` is float division); the embedding keeps
the exact rational value and the divergence is established separately by
showing the exact value need not be dyadic.
-/
import Mathlib

namespace AbcMidi

/-- Error kinds of the compiler, one per raising site of the source. -/
inductive PyErr where
  | malformedNote
  | emptyChord
  | unknownKey
  | malformedTempo
  | zeroDivision
  | valueError
  | keyError
deriving DecidableEq

instance {ε α : Type} [DecidableEq ε] [DecidableEq α] : DecidableEq (Except ε α) := fun x y =>
  match x, y with
  | .ok a, .ok b =>
    if h : a = b then .isTrue (by rw [h]) else .isFalse (by intro hh; cases hh; exact h rfl)
  | .error a, .error b =>
    if h : a = b then .isTrue (by rw [h]) else .isFalse (by intro hh; cases hh; exact h rfl)
  | .ok _, .error _ => .isFalse (by intro hh; cases hh)
  | .error _, .ok _ => .isFalse (by intro hh; cases hh)

/-- Python `str.strip` whitespace characters (the ASCII ones). -/
def isPySpace (c : Char) : Bool :=
  c == ' ' || c == '\t' || c == '\n' || c == '\r' || c == '\x0b' || c == '\x0c'

/-- Python `str.strip()`: drop whitespace from both ends. -/
def pyStrip (l : List Char) : List Char :=
  ((l.dropWhile isPySpace).reverse.dropWhile isPySpace).reverse

/-- `re.sub(r'%.+$', '', line)`: delete everything from the leftmost `%` that is
followed by at least one character; a trailing lone `%` stays. -/
def stripComment : List Char → List Char
  | [] => []
  | '%' :: rest => if rest.isEmpty then ['%'] else []
  | c :: rest => c :: stripComment rest

/-- Python `line.split(' ')`: split at every single space, keeping empty pieces. -/
def splitC : List Char → List (List Char)
  | [] => [[]]
  | c :: rest =>
    if c = ' ' then [] :: splitC rest
    else
      match splitC rest with
      | [] => [[c]]
      | t :: ts => (c :: t) :: ts

/-- Split a list at the first occurrence of `x` (the occurrence is dropped). -/
def splitFirst (x : Char) : List Char → Option (List Char × List Char)
  | [] => none
  | c :: rest =>
    if c = x then some ([], rest)
    else
      match splitFirst x rest with
      | none => none
      | some (a, b) => some (c :: a, b)

/-- Numeric value of a digit string (as read left to right, base 10). -/
def digitsVal (l : List Char) : ℕ :=
  l.foldl (fun a c => 10 * a + (c.toNat - '0'.toNat)) 0

def isDigits (l : List Char) : Bool := l.all Char.isDigit

/-- Sign prefix of Python's `Fraction(string)` grammar. -/
def pySign (s : List Char) : ℤ × List Char :=
  match s with
  | [] => (1, [])
  | c :: r => if c = '-' then (-1, r) else if c = '+' then (1, r) else (1, c :: r)

/-- Python `Fraction(string)`, restricted to the `sign? digits (/ digits)?` forms
(the decimal-point and exponent alternatives of Python's grammar are never
produced by this program's normalized values; metadata payloads using them are
outside the claims).  A zero denominator raises `ZeroDivisionError`, any other
mismatch raises `ValueError`. -/
def pyFraction (s : List Char) : Except PyErr ℚ :=
  let sign := (pySign s).1
  let rest := (pySign s).2
  match splitFirst '/' rest with
  | none =>
    if rest.isEmpty then .error .valueError
    else if isDigits rest then .ok ((sign : ℚ) * (digitsVal rest : ℚ))
    else .error .valueError
  | some (d1, d2) =>
    if d1.isEmpty || !isDigits d1 || d2.isEmpty || !isDigits d2 then .error .valueError
    else if digitsVal d2 = 0 then .error .zeroDivision
    else .ok ((sign : ℚ) * (digitsVal d1 : ℚ) / (digitsVal d2 : ℚ))

/-- The mutable `Metadata` object of the source, with its initial values. -/
structure PyMetadata where
  tempo : ℚ := 2
  key : ℤ := 0
  accidentals : List (List Char × ℤ) := []
  default_note_length : ℚ := 1 / 4
deriving DecidableEq

/-- Python dict lookup on the accidentals table. -/
def dictGet : List (List Char × ℤ) → List Char → Option ℤ
  | [], _ => none
  | (k, v) :: rest, key => if k = key then some v else dictGet rest key

/-- Python dict assignment on the accidentals table. -/
def dictSet : List (List Char × ℤ) → List Char → ℤ → List (List Char × ℤ)
  | [], key, v => [(key, v)]
  | (k, w) :: rest, key, v =>
    if k = key then (k, v) :: rest else (k, w) :: dictSet rest key v

/-- A parsed note, the dict produced by `parse_abc_note`. -/
structure NoteComponents where
  accidental : Option (List Char)
  pitch : Char
  octave : List Char
  value : ℚ
deriving DecidableEq

def isAccChar (c : Char) : Bool := c == '^' || c == '=' || c == '_'

def isOctChar (c : Char) : Bool := c == ',' || c == '\''

/-- Pitch class of the note regex: `[A-Za-gz]` (all of A-Z, then a-g and z). -/
def notePitchChar (c : Char) : Bool :=
  (decide ('A' ≤ c) && decide (c ≤ 'Z')) || (decide ('a' ≤ c) && decide (c ≤ 'g')) || c == 'z'

/-- Pitch class of the chord regex: `[A-Ga-gz]`. -/
def chordPitchChar (c : Char) : Bool :=
  (decide ('A' ≤ c) && decide (c ≤ 'G')) || (decide ('a' ≤ c) && decide (c ≤ 'g')) || c == 'z'

/-- Take the maximal prefix satisfying `p` together with the remainder. -/
def spanP (p : Char → Bool) : List Char → List Char × List Char
  | [] => ([], [])
  | c :: r => if p c then ((c :: (spanP p r).1), (spanP p r).2) else ([], c :: r)

/-- The accidental group `(\^+|=|_+)?`: a maximal run of `^`, a single `=`,
or a maximal run of `_`, else nothing. -/
def accSplit (s : List Char) : Option (List Char) × List Char :=
  match s with
  | [] => (none, [])
  | c :: r =>
    if c = '^' then (some (spanP (fun x => x == '^') (c :: r)).1, (spanP (fun x => x == '^') (c :: r)).2)
    else if c = '=' then (some ['='], r)
    else if c = '_' then (some (spanP (fun x => x == '_') (c :: r)).1, (spanP (fun x => x == '_') (c :: r)).2)
    else (none, c :: r)

/-- Acceptance of the (nonempty) value group `\d*/\d*|\d+`: digit-or-slash
characters with at most one slash. -/
def valueShapeOK (v : List Char) : Bool :=
  v.all (fun c => c.isDigit || c == '/') && decide (v.count '/' ≤ 1)

/-- The anchored note regex
`^(?P<accidental>\^+|=|_+)?(?P<pitch>[A-Za-gz])(?P<octave>[,']*)(?P<value>\d*/\d*|\d+)?$`
as a deterministic matcher, returning the four captured groups. -/
def noteMatch (s : List Char) :
    Option (Option (List Char) × Char × List Char × Option (List Char)) :=
  match accSplit s with
  | (acc, r) =>
    match r with
    | [] => none
    | p :: r2 =>
      if notePitchChar p then
        match spanP isOctChar r2 with
        | (oct, r3) =>
          if r3.isEmpty then some (acc, p, oct, none)
          else if valueShapeOK r3 then some (acc, p, oct, some r3)
          else none
      else none

/-- Slash containment test (`'/' in value`). -/
def hasSlash : List Char → Bool
  | [] => false
  | c :: r => c == '/' || hasSlash r

/-- Last character of a string (Python `value.endswith('/')` support). -/
def lastCh : List Char → Option Char
  | [] => none
  | c :: r =>
    match lastCh r with
    | none => some c
    | some d => some d

/-- Normalization of the matched value string (source lines 56-65): `/` means
`1/2`, a leading `/` gets numerator 1, a trailing `/` gets denominator 2. -/
def valueNormalize (v : List Char) : List Char :=
  if hasSlash v then
    if v = ['/'] then ['1', '/', '2']
    else if v.head? = some '/' then '1' :: v
    else if lastCh v = some '/' then v ++ ['2']
    else v
  else v

/-- Raw value of a note before scaling: default `'1'` when absent, else the
normalized string fed to `Fraction`. -/
def noteValueRaw (v : Option (List Char)) : Except PyErr ℚ :=
  match v with
  | none => pyFraction ['1']
  | some x => pyFraction (valueNormalize x)

/-- `parse_abc_note`: match the note regex (raising `MalformedNote` on
mismatch), normalize and evaluate the duration, and scale it by the current
`default_note_length`.  Does not modify the metadata. -/
def parse_abc_note (md : PyMetadata) (s : List Char) : Except PyErr NoteComponents :=
  match noteMatch s with
  | none => .error .malformedNote
  | some (acc, p, oct, v) =>
    match noteValueRaw v with
    | .error e => .error e
    | .ok q => .ok ⟨acc, p, oct, q * md.default_note_length⟩

/-- The greedy value prefix `(\d*/\d*|\d+)?` of the unanchored chord regex. -/
def matchValuePrefix (s : List Char) : List Char × List Char :=
  match spanP Char.isDigit s with
  | (d1, r1) =>
    match r1 with
    | '/' :: r2 =>
      match spanP Char.isDigit r2 with
      | (d2, r3) => (d1 ++ '/' :: d2, r3)
    | _ => if d1.isEmpty then ([], s) else (d1, r1)

/-- One attempted match of the chord regex at the head of `s`: accidental run,
mandatory pitch in `[A-Ga-gz]`, octave run, greedy value. -/
def tryMatchNote (s : List Char) : Option (List Char × List Char) :=
  match accSplit s with
  | (acc, r) =>
    match r with
    | [] => none
    | p :: r2 =>
      if chordPitchChar p then
        match spanP isOctChar r2 with
        | (oct, r3) =>
          match matchValuePrefix r3 with
          | (v, r4) => some ((acc.getD []) ++ p :: (oct ++ v), r4)
      else none

/-- `re.finditer` scan with explicit fuel (each step consumes at least one
character, so `s.length` fuel suffices). -/
def findNotesFuel : ℕ → List Char → List (List Char)
  | 0, _ => []
  | _ + 1, [] => []
  | n + 1, c :: rest =>
    match tryMatchNote (c :: rest) with
    | some (tok, r) => tok :: findNotesFuel n r
    | none => findNotesFuel n rest

/-- All non-overlapping matches of the chord note regex, left to right. -/
def findNotes (s : List Char) : List (List Char) := findNotesFuel s.length s

/-- `parse_abc_chord`: collect the matches, raising `EmptyChord` when none. -/
def parse_abc_chord (s : List Char) : Except PyErr (List (List Char)) :=
  if (findNotes s).isEmpty then .error .emptyChord else .ok (findNotes s)

/-- The `pitch_classes` table of `get_midi_pitch`. -/
def pitch_classes (c : Char) : Option ℤ :=
  if c = 'C' then some 60 else if c = 'D' then some 62 else if c = 'E' then some 64
  else if c = 'F' then some 65 else if c = 'G' then some 67 else if c = 'A' then some 69
  else if c = 'B' then some 71
  else if c = 'c' then some 72 else if c = 'd' then some 74 else if c = 'e' then some 76
  else if c = 'f' then some 77 else if c = 'g' then some 79 else if c = 'a' then some 81
  else if c = 'b' then some 83 else none

/-- Octave shift direction: the kind of the first marker (`'` up, `,` down). -/
def octave_direction (o : List Char) : ℤ :=
  match o with
  | [] => 0
  | c :: _ => if c = '\'' then 1 else -1

/-- Semitone offset recorded for an explicit accidental string. -/
def accOffset (a : List Char) : ℤ :=
  if a = ['='] then 0
  else (if a.head? = some '^' then 1 else -1) * a.length

/-- The accidental-recording side effect of `get_midi_pitch`. -/
def applyAccidental (md : PyMetadata) (acc : Option (List Char)) (p : Char) (o : List Char) :
    PyMetadata :=
  match acc with
  | none => md
  | some a => { md with accidentals := dictSet md.accidentals (p :: o) (accOffset a) }

/-- The key-signature adjustment of `get_midi_pitch` (sharp order F C G D A E B
at thresholds 1..7, flat order B E A D G C F at thresholds -1..-7). -/
def keyAdjust (key : ℤ) (p : Char) (mp : ℤ) : ℤ :=
  let u := p.toUpper
  let mp1 :=
    if (key ≥ 1 ∧ u = 'F') ∨ (key ≥ 2 ∧ u = 'C') ∨ (key ≥ 3 ∧ u = 'G') ∨
       (key ≥ 4 ∧ u = 'D') ∨ (key ≥ 5 ∧ u = 'A') ∨ (key ≥ 6 ∧ u = 'E') ∨
       (key ≥ 7 ∧ u = 'B') then mp + 1 else mp
  if (key ≤ -1 ∧ u = 'B') ∨ (key ≤ -2 ∧ u = 'E') ∨ (key ≤ -3 ∧ u = 'A') ∨
     (key ≤ -4 ∧ u = 'D') ∨ (key ≤ -5 ∧ u = 'G') ∨ (key ≤ -6 ∧ u = 'C') ∨
     (key ≤ -7 ∧ u = 'F') then mp1 - 1 else mp1

/-- `get_midi_pitch`: record an explicit accidental, look the pitch letter up
(raising `KeyError` when absent), shift by octaves, then apply either the
stored accidental for this exact spelling or the key signature. -/
def get_midi_pitch (md : PyMetadata) (accidental : Option (List Char)) (pitch : Char)
    (octave : List Char) : Except PyErr (ℤ × PyMetadata) :=
  let md' := applyAccidental md accidental pitch octave
  match pitch_classes pitch with
  | none => .error .keyError
  | some base =>
    let mp := base + octave_direction octave * 12 * (octave.length : ℤ)
    match dictGet md'.accidentals (pitch :: octave) with
    | some off => .ok (mp + off, md')
    | none => .ok (keyAdjust md'.key pitch mp, md')

/-- The `key_accidentals` lookup table of `parse_meta_key`. -/
def keyLookup (s : List Char) : Option ℤ :=
  if s = ['C', 'b'] then some (-7) else if s = ['G', 'b'] then some (-6)
  else if s = ['D', 'b'] then some (-5) else if s = ['A', 'b'] then some (-4)
  else if s = ['E', 'b'] then some (-3) else if s = ['B', 'b'] then some (-2)
  else if s = ['F'] then some (-1) else if s = ['C'] then some 0
  else if s = ['G'] then some 1 else if s = ['D'] then some 2
  else if s = ['A'] then some 3 else if s = ['E'] then some 4
  else if s = ['B'] then some 5 else if s = ['F', '#'] then some 6
  else if s = ['C', '#'] then some 7 else none

/-- `parse_meta_key`: install the key degree and clear the accidentals table. -/
def parse_meta_key (md : PyMetadata) (s : List Char) : Except PyErr PyMetadata :=
  match keyLookup s with
  | none => .error .unknownKey
  | some k => .ok { md with key := k, accidentals := [] }

/-- Final tempo computation `60 / bpm / unit`.  The source performs `60 /
int(bpm)` as Python float division; the embedding keeps the exact rational
(the divergence is the subject of the claim about exactness).  A zero `bpm`
or `unit` raises `ZeroDivisionError`. -/
def tempoResult (unit : ℚ) (bpm : ℕ) : Except PyErr ℚ :=
  if bpm = 0 then .error .zeroDivision
  else if unit = 0 then .error .zeroDivision
  else .ok (60 / (bpm : ℚ) / unit)

/-- `parse_tempo`: the grammar `^((?P<unit>\d+/\d+|\d+)=)?(?P<bpm>\d+)$` with
unit defaulting to `1/4`, raising `MalformedTempo` on mismatch. -/
def parse_tempo (s : List Char) : Except PyErr ℚ :=
  match splitFirst '=' s with
  | none =>
    if s.isEmpty || !isDigits s then .error .malformedTempo
    else tempoResult (1 / 4) (digitsVal s)
  | some (u, b) =>
    if b.isEmpty || !isDigits b then .error .malformedTempo
    else
      match splitFirst '/' u with
      | none =>
        if u.isEmpty || !isDigits u then .error .malformedTempo
        else tempoResult (digitsVal u : ℚ) (digitsVal b)
      | some (a, c) =>
        if a.isEmpty || !isDigits a || c.isEmpty || !isDigits c then .error .malformedTempo
        else if digitsVal c = 0 then .error .zeroDivision
        else tempoResult ((digitsVal a : ℚ) / (digitsVal c : ℚ)) (digitsVal b)

/-- One emitted note event `[start, end, pitch, velocity]`. -/
structure Event where
  start : ℚ
  stop : ℚ
  pitch : ℤ
  velocity : ℕ
deriving DecidableEq

/-- The local state of `abc_to_piano_roll`. -/
structure CompState where
  metadata : PyMetadata := {}
  seconds_elapsed : ℚ := 0
  beats_elapsed : ℚ := 0
  piano_roll : List Event := []
deriving DecidableEq

def initState : CompState := {}

/-- Error-propagating map (the list comprehension over `parse_abc_note`). -/
def mapE {α β : Type} (f : α → Except PyErr β) : List α → Except PyErr (List β)
  | [] => .ok []
  | a :: as =>
    match f a with
    | .error e => .error e
    | .ok b =>
      match mapE f as with
      | .error e => .error e
      | .ok bs => .ok (b :: bs)

/-- Python `min` over the chord's values (raises on an empty list). -/
def pyMin : List ℚ → Except PyErr ℚ
  | [] => .error .valueError
  | x :: xs => .ok (xs.foldl (fun a b => min a b) x)

/-- The inner loop over the parsed chord: skip rests, resolve pitches
(threading the accidental table), and append events. -/
def processComponents (s : CompState) : List NoteComponents → Except PyErr CompState
  | [] => .ok s
  | c :: rest =>
    if c.pitch = 'z' then processComponents s rest
    else
      match get_midi_pitch s.metadata c.accidental c.pitch c.octave with
      | .error e => .error e
      | .ok (mp, md') =>
        let start := s.seconds_elapsed + s.metadata.tempo * s.beats_elapsed
        let stop := start + s.metadata.tempo * c.value
        processComponents
          { s with metadata := md', piano_roll := s.piano_roll ++ [⟨start, stop, mp, 80⟩] } rest

/-- Implicit bracketing of a bare token by the timeline builder. -/
def wrapTok (tok : List Char) : List Char :=
  match tok with
  | '[' :: _ => tok
  | _ => '[' :: (tok ++ [']'])

/-- Process one whitespace-split token: wrap, tokenize the chord, parse the
notes, emit events, then advance `beats_elapsed` by the minimum value. -/
def processToken (s : CompState) (tok : List Char) : Except PyErr CompState :=
  match parse_abc_chord (wrapTok tok) with
  | .error e => .error e
  | .ok noteStrs =>
    match mapE (parse_abc_note s.metadata) noteStrs with
    | .error e => .error e
    | .ok comps =>
      match processComponents s comps with
      | .error e => .error e
      | .ok s2 =>
        match pyMin (comps.map (fun c => c.value)) with
        | .error e => .error e
        | .ok m => .ok { s2 with beats_elapsed := s2.beats_elapsed + m }

def processTokens (s : CompState) : List (List Char) → Except PyErr CompState
  | [] => .ok s
  | t :: ts =>
    match processToken s t with
    | .error e => .error e
    | .ok s' => processTokens s' ts

/-- `re.match(r'^[A-Z]:', line)`: a capital letter followed by a colon. -/
def isMetaLine (l : List Char) : Bool :=
  match l with
  | c :: c2 :: _ => c.isUpper && c2 == ':'
  | _ => false

/-- The metadata dispatch of the driver: `K` installs a key, `Q` flushes the
elapsed beats into seconds (with the tempo still in force) and then installs
the newly parsed tempo, `L` replaces the default note length, and any other
capital letter is ignored.  The `Q` branch stores the parsed tempo as an
exact rational where the source keeps the Python float produced by its tempo
computation — the divergence documented at `tempoResult`, which contaminates
every start/end time computed after a `Q` line in the source. -/
def metaStep (s : CompState) (c : Char) (payload : List Char) : Except PyErr CompState :=
  if c = 'K' then
    match parse_meta_key s.metadata payload with
    | .error e => .error e
    | .ok md => .ok { s with metadata := md }
  else if c = 'Q' then
    match parse_tempo payload with
    | .error e => .error e
    | .ok t =>
      .ok { s with
            seconds_elapsed := s.seconds_elapsed + s.metadata.tempo * s.beats_elapsed,
            beats_elapsed := 0,
            metadata := { s.metadata with tempo := t } }
  else if c = 'L' then
    match pyFraction payload with
    | .error e => .error e
    | .ok q => .ok { s with metadata := { s.metadata with default_note_length := q } }
  else .ok s

/-- Process one raw input line: strip the trailing comment and whitespace,
skip blanks, dispatch metadata lines (the payload is the line with its
two-character prefix removed, then stripped), otherwise treat the line as
space-separated note tokens. -/
def processLine (s : CompState) (rawLine : List Char) : Except PyErr CompState :=
  let l := pyStrip (stripComment rawLine)
  if l.isEmpty then .ok s
  else if isMetaLine l then
    match l with
    | c :: _ :: rest => metaStep s c (pyStrip rest)
    | _ => .ok s
  else processTokens s (splitC l)

def runLines (s : CompState) : List (List Char) → Except PyErr CompState
  | [] => .ok s
  | l :: ls =>
    match processLine s l with
    | .error e => .error e
    | .ok s' => runLines s' ls

/-- `abc_to_piano_roll`: fold the lines over the state machine and return the
accumulated piano roll. -/
def abc_to_piano_roll (lines : List (List Char)) : Except PyErr (List Event) :=
  match runLines initState lines with
  | .error e => .error e
  | .ok s => .ok s.piano_roll

/-- Install a key signature on a fresh context, then resolve an unmarked note
letter carrying no octave markers. -/
def keyThenResolve (k : List Char) (p : Char) : Except PyErr ℤ :=
  match parse_meta_key {} k with
  | .error e => .error e
  | .ok md =>
    match get_midi_pitch md none p [] with
    | .error e => .error e
    | .ok (mp, _) => .ok mp

/-- The parsed `L:` payload of a raw line, when the line is an `L` metadata
line whose payload is a welformed fraction (used to state the positivity
invariant). -/
def lineLValue (rawLine : List Char) : Option ℚ :=
  match pyStrip (stripComment rawLine) with
  | c :: c2 :: rest =>
    if c = 'L' ∧ c2 = ':' then
      match pyFraction (pyStrip rest) with
      | .ok q => some q
      | .error _ => none
    else none
  | _ => none

/-- Concrete context: fresh metadata carrying a stored double flat on `C`. -/
def mdCflat : PyMetadata :=
  { tempo := 2, key := 0, accidentals := [(['C'], -2)], default_note_length := 1 / 4 }

/-- Concrete context: six flats with a stored double flat on `C`. -/
def mdSixFlats : PyMetadata :=
  { tempo := 2, key := -6, accidentals := [(['C'], -2)], default_note_length := 1 / 4 }

/-- Concrete context: six flats with stored accidentals on `C` and `D`. -/
def mdSixFlatsD : PyMetadata :=
  { tempo := 2, key := -6, accidentals := [(['C'], -2), (['D'], 1)],
    default_note_length := 1 / 4 }

/-- Concrete context: two flats (`Bb`) with an empty accidentals table. -/
def mdTwoFlats : PyMetadata :=
  { tempo := 2, key := -2, accidentals := [], default_note_length := 1 / 4 }

/-- Concrete state before a `Q` line: default metadata (tempo 2) with 3 beats
and 5 seconds already elapsed. -/
def stateFlushBefore : CompState :=
  { metadata := {}, seconds_elapsed := 5, beats_elapsed := 3, piano_roll := [] }

/-- Concrete state after processing `Q:60` from `stateFlushBefore`: the flush
used the tempo still in force (5 + 2 * 3 = 11), the beats reset to 0, and only
then was the new tempo 60/60/(1/4) = 4 installed. -/
def stateFlushAfter : CompState :=
  { metadata := { tempo := 4, key := 0, accidentals := [], default_note_length := 1 / 4 },
    seconds_elapsed := 11, beats_elapsed := 0, piano_roll := [] }

/-- Concrete state: fresh context after `L:1/2` (default note length 1/2). -/
def stateL12 : CompState :=
  { metadata := { tempo := 2, key := 0, accidentals := [], default_note_length := 1 / 2 },
    seconds_elapsed := 0, beats_elapsed := 0, piano_roll := [] }

/- ------------------------------------------------------------------ -/
/- Shared lemmas                                                       -/
/- ------------------------------------------------------------------ -/

theorem dictGet_set_self (l : List (List Char × ℤ)) (k : List Char) (v : ℤ) :
    dictGet (dictSet l k v) k = some v := by
  induction l with
  | nil => simp [dictSet, dictGet]
  | cons h t ih =>
    obtain ⟨k', v'⟩ := h
    by_cases hk : k' = k
    · simp [dictSet, dictGet, hk]
    · simp [dictSet, dictGet, hk, ih]

theorem dictGet_set_other (l : List (List Char × ℤ)) (k sp : List Char) (v : ℤ)
    (h : sp ≠ k) : dictGet (dictSet l k v) sp = dictGet l sp := by
  have hks : ¬k = sp := fun hh => h hh.symm
  induction l with
  | nil => simp [dictSet, dictGet, hks]
  | cons hd t ih =>
    obtain ⟨k', v'⟩ := hd
    by_cases hk : k' = k
    · subst hk
      simp [dictSet, dictGet, hks]
    · simp [dictSet, dictGet, hk, ih]

theorem get_midi_pitch_metadata {md : PyMetadata} {acc : Option (List Char)} {p : Char}
    {o : List Char} {r : ℤ} {md' : PyMetadata}
    (h : get_midi_pitch md acc p o = .ok (r, md')) :
    md' = applyAccidental md acc p o := by
  simp only [get_midi_pitch] at h
  split at h
  · cases h
  · split at h <;>
      (injection h with h2;
       exact (congrArg Prod.snd h2).symm)

theorem applyAccidental_tempo (md : PyMetadata) (acc : Option (List Char)) (p : Char)
    (o : List Char) : (applyAccidental md acc p o).tempo = md.tempo := by
  cases acc <;> rfl

theorem applyAccidental_dnl (md : PyMetadata) (acc : Option (List Char)) (p : Char)
    (o : List Char) :
    (applyAccidental md acc p o).default_note_length = md.default_note_length := by
  cases acc <;> rfl

theorem accSplit_not_acc {c : Char} (r : List Char) (h : isAccChar c = false) :
    accSplit (c :: r) = (none, c :: r) := by
  simp only [isAccChar, Bool.or_eq_false_iff, beq_eq_false_iff_ne, ne_eq] at h
  obtain ⟨⟨h1, h2⟩, h3⟩ := h
  simp [accSplit, h1, h2, h3]

theorem tryMatchNote_skip {c : Char} (rest : List Char) (h1 : isAccChar c = false)
    (h2 : chordPitchChar c = false) : tryMatchNote (c :: rest) = none := by
  simp [tryMatchNote, accSplit_not_acc rest h1, h2]

theorem findNotes_skip {c : Char} (rest : List Char) (h1 : isAccChar c = false)
    (h2 : chordPitchChar c = false) : findNotes (c :: rest) = findNotes rest := by
  simp [findNotes, findNotesFuel, tryMatchNote_skip rest h1 h2]

theorem processComponents_beats :
    ∀ (cs : List NoteComponents) (s s' : CompState),
      processComponents s cs = .ok s' → s'.beats_elapsed = s.beats_elapsed := by
  intro cs
  induction cs with
  | nil =>
    intro s s' h
    cases h
    rfl
  | cons c rest ih =>
    intro s s' h
    simp only [processComponents] at h
    by_cases hz : c.pitch = 'z'
    · rw [if_pos hz] at h
      exact ih s s' h
    · rw [if_neg hz] at h
      cases hg : get_midi_pitch s.metadata c.accidental c.pitch c.octave with
      | error e =>
        simp only [hg] at h
        cases h
      | ok pr =>
        obtain ⟨mp, md'⟩ := pr
        simp only [hg] at h
        have hb := ih _ s' h
        exact hb

theorem processComponents_tempo_dnl :
    ∀ (cs : List NoteComponents) (s s' : CompState),
      processComponents s cs = .ok s' →
      s'.metadata.tempo = s.metadata.tempo ∧
        s'.metadata.default_note_length = s.metadata.default_note_length := by
  intro cs
  induction cs with
  | nil =>
    intro s s' h
    cases h
    exact ⟨rfl, rfl⟩
  | cons c rest ih =>
    intro s s' h
    simp only [processComponents] at h
    by_cases hz : c.pitch = 'z'
    · rw [if_pos hz] at h
      exact ih s s' h
    · rw [if_neg hz] at h
      cases hg : get_midi_pitch s.metadata c.accidental c.pitch c.octave with
      | error e =>
        simp only [hg] at h
        cases h
      | ok pr =>
        obtain ⟨mp, md'⟩ := pr
        simp only [hg] at h
        obtain ⟨h1, h2⟩ := ih _ s' h
        have hmd := get_midi_pitch_metadata hg
        constructor
        · rw [h1]
          show md'.tempo = s.metadata.tempo
          rw [hmd, applyAccidental_tempo]
        · rw [h2]
          show md'.default_note_length = s.metadata.default_note_length
          rw [hmd, applyAccidental_dnl]

theorem processToken_tempo_dnl {s : CompState} {t : List Char} {s' : CompState}
    (h : processToken s t = .ok s') :
    s'.metadata.tempo = s.metadata.tempo ∧
      s'.metadata.default_note_length = s.metadata.default_note_length := by
  simp only [processToken] at h
  cases h1 : parse_abc_chord (wrapTok t) with
  | error e => simp only [h1] at h; cases h
  | ok noteStrs =>
    simp only [h1] at h
    cases h2 : mapE (parse_abc_note s.metadata) noteStrs with
    | error e => simp only [h2] at h; cases h
    | ok comps =>
      simp only [h2] at h
      cases h3 : processComponents s comps with
      | error e => simp only [h3] at h; cases h
      | ok s2 =>
        simp only [h3] at h
        cases h4 : pyMin (comps.map fun c => c.value) with
        | error e => simp only [h4] at h; cases h
        | ok m =>
          simp only [h4] at h
          cases h
          exact processComponents_tempo_dnl comps s s2 h3

theorem processTokens_tempo_dnl :
    ∀ (ts : List (List Char)) (s s' : CompState),
      processTokens s ts = .ok s' →
      s'.metadata.tempo = s.metadata.tempo ∧
        s'.metadata.default_note_length = s.metadata.default_note_length := by
  intro ts
  induction ts with
  | nil =>
    intro s s' h
    cases h
    exact ⟨rfl, rfl⟩
  | cons t rest ih =>
    intro s s' h
    simp only [processTokens] at h
    cases h1 : processToken s t with
    | error e => simp only [h1] at h; cases h
    | ok s2 =>
      simp only [h1] at h
      obtain ⟨a1, a2⟩ := processToken_tempo_dnl h1
      obtain ⟨b1, b2⟩ := ih s2 s' h
      exact ⟨b1.trans a1, b2.trans a2⟩

theorem runLines_append (xs ys : List (List Char)) :
    ∀ s, runLines s (xs ++ ys) =
      match runLines s xs with
      | .error e => .error e
      | .ok s' => runLines s' ys := by
  induction xs with
  | nil => intro s; rfl
  | cons l ls ih =>
    intro s
    simp only [List.cons_append, runLines]
    cases processLine s l with
    | error e => rfl
    | ok s' => exact ih s'

/- ------------------------------------------------------------------ -/
/- Claim theorems                                                      -/
/- ------------------------------------------------------------------ -/

/-- C1: the tempo line `7` matches the grammar with the default unit `1/4`,
and the exact rational result is `60 / 7 / (1/4) = 240/7`.  For every `k`,
`(240/7) * 2^k` still has denominator 7, so `240/7` is not a dyadic rational
and therefore equals no finite binary float.  The source computes
`60 / int(bpm) / Fraction(unit)` whose leading division is Python float
division, so the stored tempo is a float and cannot be this exact rational:
the code violates the claimed exact-rational computation. -/
theorem C1_tempo_not_exact_rational :
    parse_tempo ['7'] = .ok (240 / 7) ∧
    ∀ k : ℕ, ((240 / 7 : ℚ) * 2 ^ k).den = 7 := by
  constructor
  · with_unfolding_all rfl
  · intro k
    have h : (240 / 7 : ℚ) * 2 ^ k = ((240 * 2 ^ k : ℤ) : ℚ) / ((7 : ℤ) : ℚ) := by
      push_cast
      ring
    rw [h]
    have h7 : (0 : ℤ) < 7 := by norm_num
    have hcop : Nat.Coprime (240 * 2 ^ k : ℤ).natAbs (7 : ℤ).natAbs := by
      simp only [Int.natAbs_mul, Int.natAbs_pow, Int.natAbs_ofNat]
      exact Nat.Coprime.mul (by decide) (Nat.Coprime.pow_left k (by decide))
    exact_mod_cast Rat.den_div_eq_of_coprime h7 hcop

/-- C2 counterexample: after installing key `F#` (six sharps) the unmarked `B`
resolves to its base pitch 71 and not to `71 + 1`: in the source `B` is
sharpened only when `key >= 7`, and `F#` maps to 6. -/
theorem C2_counterexample :
    keyThenResolve ['F', '#'] 'B' = .ok 71 ∧ pitch_classes 'B' = some 71 ∧
    decide ((71 : ℤ) = 71 + 1) = false := by
  refine ⟨?_, ?_, ?_⟩ <;> with_unfolding_all rfl

/-- C2 (amended): after `F#` the unmarked `B` stays at its base pitch 71 (the
key that raises `B` is `C#`, seven sharps, which yields 72); after `Bb` the
unmarked `B` resolves one semitone below the base, 70. -/
theorem C2_amended :
    keyThenResolve ['F', '#'] 'B' = .ok 71 ∧
    keyThenResolve ['C', '#'] 'B' = .ok 72 ∧
    keyThenResolve ['B', 'b'] 'B' = .ok 70 ∧
    pitch_classes 'B' = some 71 := by
  refine ⟨?_, ?_, ?_, ?_⟩ <;> with_unfolding_all rfl

/-- C3: the note grammar's pitch class is `[A-Za-gz]`, which contains every
uppercase letter, so `parse_abc_note` accepts the token `H4` (pitch `H`,
value `4 * 1/4 = 1`) instead of failing with `MalformedNote`; in the full
pipeline the line `H4` is instead rejected by the chord tokenizer (whose
class is `[A-Ga-gz]`) with `EmptyChord`. -/
theorem C3_note_grammar_accepts_H :
    parse_abc_note {} ['H', '4'] = .ok ⟨none, 'H', [], 1⟩ ∧
    abc_to_piano_roll [['H', '4']] = .error .emptyChord := by
  constructor <;> with_unfolding_all rfl

/-- C7 counterexample: processing the metadata line `L:0` installs
`default_note_length = 0`, which is not strictly positive. -/
theorem C7_counterexample :
    (match runLines initState [['L', ':', '0']] with
      | .ok s => some s.metadata.default_note_length
      | .error _ => none) = some 0 ∧ decide ((0 : ℚ) < 0) = false := by
  constructor <;> with_unfolding_all rfl

/-- C10: the chord tokenizer fails (with `EmptyChord`) exactly when zero
substrings match the note pattern; otherwise it returns precisely the matched
substrings; a character that can start neither an accidental run nor a pitch
is skipped silently; concretely, junk characters interleaved with valid notes
are dropped without any error. -/
theorem C10_tokenizer_skips_junk :
    (∀ s, parse_abc_chord s = .error .emptyChord ↔ findNotes s = []) ∧
    (∀ s, (findNotes s).isEmpty = false → parse_abc_chord s = .ok (findNotes s)) ∧
    (∀ c rest, isAccChar c = false → chordPitchChar c = false →
      findNotes (c :: rest) = findNotes rest) ∧
    parse_abc_chord ['[', 'C', '2', '#', 'E', '!', ']'] = .ok [['C', '2'], ['E']] := by
  refine ⟨?_, ?_, ?_, ?_⟩
  · intro s
    constructor
    · intro h
      by_cases he : (findNotes s).isEmpty
      · exact List.isEmpty_iff.mp he
      · rw [parse_abc_chord, if_neg he] at h
        cases h
    · intro h
      simp [parse_abc_chord, h]
  · intro s h
    simp [parse_abc_chord, h]
  · intro c rest h1 h2
    exact findNotes_skip rest h1 h2
  · with_unfolding_all rfl

/-- Witness for C10 at concrete inputs: a tokenizer success through the
second conjunct, and one junk-skipping step through the third. -/
theorem C10_witness :
    parse_abc_chord ['x', 'C'] = .ok (findNotes ['x', 'C']) ∧
    findNotes (':' :: ['C']) = findNotes ['C'] :=
  ⟨C10_tokenizer_skips_junk.2.1 ['x', 'C'] (by with_unfolding_all rfl),
   C10_tokenizer_skips_junk.2.2.1 ':' ['C'] (by with_unfolding_all rfl)
     (by with_unfolding_all rfl)⟩

/-- C6: explicit-accidental precedence and persistence.
(1) Resolving a note with an explicit accidental records the accidental's
signed offset in the table under the exact letter-plus-octave-marker spelling
(an explicit natural as offset 0, per `accOffset`);
(2) a note with the identical spelling and no explicit accidental then
resolves as base + octave shift + stored offset, bypassing the key signature
entirely and leaving the context unchanged;
(3) resolving any other note (different spelling, or no explicit accidental)
preserves the stored entry, so the entry persists;
(4) installing a key signature clears the whole accidentals table. -/
theorem C6_accidental_persistence :
    (∀ (md : PyMetadata) (a : List Char) (p : Char) (o : List Char) (r : ℤ)
      (md' : PyMetadata),
      get_midi_pitch md (some a) p o = .ok (r, md') →
      dictGet md'.accidentals (p :: o) = some (accOffset a)) ∧
    (∀ (md : PyMetadata) (p : Char) (o : List Char) (off base : ℤ),
      dictGet md.accidentals (p :: o) = some off →
      pitch_classes p = some base →
      get_midi_pitch md none p o =
        .ok (base + octave_direction o * 12 * (o.length : ℤ) + off, md)) ∧
    (∀ (md : PyMetadata) (acc : Option (List Char)) (p : Char) (o sp : List Char) (r : ℤ)
      (md' : PyMetadata),
      get_midi_pitch md acc p o = .ok (r, md') →
      acc = none ∨ sp ≠ p :: o →
      dictGet md'.accidentals sp = dictGet md.accidentals sp) ∧
    (∀ (md : PyMetadata) (ks : List Char) (md' : PyMetadata),
      parse_meta_key md ks = .ok md' → md'.accidentals = []) := by
  refine ⟨?_, ?_, ?_, ?_⟩
  · intro md a p o r md' h
    rw [get_midi_pitch_metadata h]
    simp [applyAccidental, dictGet_set_self]
  · intro md p o off base hacc hpc
    simp [get_midi_pitch, applyAccidental, hpc, hacc]
  · intro md acc p o sp r md' h hd
    rw [get_midi_pitch_metadata h]
    rcases hd with hd | hd
    · subst hd
      rfl
    · cases acc with
      | none => rfl
      | some a =>
        simp only [applyAccidental]
        exact dictGet_set_other _ _ _ _ hd
  · intro md ks md' h
    simp only [parse_meta_key] at h
    split at h
    · cases h
    · cases h
      rfl

/-- Witness for C6 on concrete inputs: a double-flat on `C` is stored as
offset -2; an unmarked `C` in a six-flat key (which would otherwise lower `C`)
resolves with the stored offset; storing a sharp on `D` preserves the entry
for `C`; installing `Bb` clears the table. -/
theorem C6_witness :
    dictGet mdCflat.accidentals ('C' :: []) = some (accOffset ['_', '_']) ∧
    get_midi_pitch mdSixFlats none 'C' [] =
      .ok (60 + octave_direction [] * 12 * ((([] : List Char).length : ℕ) : ℤ) + -2,
        mdSixFlats) ∧
    dictGet mdSixFlatsD.accidentals ['C'] = dictGet mdSixFlats.accidentals ['C'] ∧
    mdTwoFlats.accidentals = [] :=
  ⟨C6_accidental_persistence.1 {} ['_', '_'] 'C' [] 58 mdCflat (by with_unfolding_all rfl),
   C6_accidental_persistence.2.1 mdSixFlats 'C' [] (-2) 60
     (by with_unfolding_all rfl) (by with_unfolding_all rfl),
   C6_accidental_persistence.2.2.1 mdSixFlats (some ['^']) 'D' [] ['C'] 63 mdSixFlatsD
     (by with_unfolding_all rfl) (Or.inr (by with_unfolding_all decide)),
   C6_accidental_persistence.2.2.2 mdSixFlats ['B', 'b'] mdTwoFlats
     (by with_unfolding_all rfl)⟩

/-- C5: chord timing.  In general, a successfully processed token advances
`beats_elapsed` by exactly the minimum of the chord's note values (rests
included, since `pyMin` ranges over every parsed component).  Concretely,
compiling `[C2E4]` with `default_note_length = 1` (via `L:1`) and the default
tempo of 2 seconds per whole note yields `C` spanning `(0, 4)` and `E`
spanning `(0, 8)`, a following `C` on the same line starts at time 4, and
after the chord alone `beats_elapsed` is 2. -/
theorem C5_chord_timing :
    (∀ (s : CompState) (tok : List Char) (noteStrs : List (List Char))
      (comps : List NoteComponents) (m : ℚ) (s' : CompState),
      parse_abc_chord (wrapTok tok) = .ok noteStrs →
      mapE (parse_abc_note s.metadata) noteStrs = .ok comps →
      pyMin (comps.map (fun c => c.value)) = .ok m →
      processToken s tok = .ok s' →
      s'.beats_elapsed = s.beats_elapsed + m) ∧
    abc_to_piano_roll [['L', ':', '1'], ['[', 'C', '2', 'E', '4', ']', ' ', 'C']] =
      .ok [⟨0, 4, 60, 80⟩, ⟨0, 8, 64, 80⟩, ⟨4, 6, 60, 80⟩] ∧
    (match runLines initState [['L', ':', '1'], ['[', 'C', '2', 'E', '4', ']']] with
      | .ok s => some s.beats_elapsed
      | .error _ => none) = some 2 := by
  refine ⟨?_, ?_, ?_⟩
  · intro s tok noteStrs comps m s' h1 h2 h3 h4
    simp only [processToken, h1, h2] at h4
    cases hpc : processComponents s comps with
    | error e =>
      rw [hpc] at h4
      cases h4
    | ok s2 =>
      rw [hpc] at h4
      rw [h3] at h4
      cases h4
      show s2.beats_elapsed + m = s.beats_elapsed + m
      rw [processComponents_beats comps s s2 hpc]
  · with_unfolding_all rfl
  · with_unfolding_all rfl

/-- Witness for C5's general conjunct: processing the bare chord `[C2E4]`
from the initial state (default note length 1/4) advances `beats_elapsed`
by `min (1/2) 1 = 1/2`. -/
theorem C5_witness :
    ({ metadata := {}, seconds_elapsed := 0, beats_elapsed := 0 + 1 / 2,
        piano_roll := [⟨0, 1, 60, 80⟩, ⟨0, 2, 64, 80⟩] } : CompState).beats_elapsed =
      initState.beats_elapsed + 1 / 2 :=
  C5_chord_timing.1 initState ['[', 'C', '2', 'E', '4', ']'] [['C', '2'], ['E', '4']]
    [⟨none, 'C', [], 1 / 2⟩, ⟨none, 'E', [], 1⟩] (1 / 2)
    { metadata := {}, seconds_elapsed := 0, beats_elapsed := 0 + 1 / 2,
      piano_roll := [⟨0, 1, 60, 80⟩, ⟨0, 2, 64, 80⟩] }
    (by with_unfolding_all rfl) (by with_unfolding_all rfl) (by with_unfolding_all rfl)
    (by with_unfolding_all rfl)

/-- C8: the flush mechanics of a `Q` line hold as claimed: `seconds_elapsed`
gains `current_tempo * beats_elapsed` computed with the tempo still in force,
`beats_elapsed` resets to 0, only then is the newly parsed tempo installed,
and already-emitted events are untouched — the third conjunct exhibits this
(5 + 2 * 3 = 11 uses the old tempo 2 before 4 is installed).  The claimed
identity of note start times, however, fails on the source: without any
inserted line, the piece `L:1/3`, `C C` places its second note at exactly
2/3 (first conjunct — a run that involves no floats in the source, since only
a `Q` line makes the tempo a float), and for every `k` the rational
`(2/3) * 2^k` still has denominator 3 (second conjunct), so 2/3 equals no
finite binary float; inserting `Q:120` (which numerically reinstalls the
current tempo 2) makes the source store the float `2.0` and compute that same
start as `2.0 * Fraction(1,3)` — a float, which therefore differs from the
exact 2/3 the claim requires. -/
theorem C8_tempo_flush_float_bug :
    abc_to_piano_roll [['L', ':', '1', '/', '3'], ['C', ' ', 'C']] =
      .ok [⟨0, 2 / 3, 60, 80⟩, ⟨2 / 3, 4 / 3, 60, 80⟩] ∧
    (∀ k : ℕ, ((2 / 3 : ℚ) * 2 ^ k).den = 3) ∧
    metaStep stateFlushBefore 'Q' ['6', '0'] = .ok stateFlushAfter := by
  refine ⟨by with_unfolding_all rfl, ?_, by with_unfolding_all rfl⟩
  intro k
  have h : (2 / 3 : ℚ) * 2 ^ k = ((2 * 2 ^ k : ℤ) : ℚ) / ((3 : ℤ) : ℚ) := by
    push_cast
    ring
  rw [h]
  have h3 : (0 : ℤ) < 3 := by norm_num
  have hcop : Nat.Coprime (2 * 2 ^ k : ℤ).natAbs (3 : ℤ).natAbs := by
    simp only [Int.natAbs_mul, Int.natAbs_pow, Int.natAbs_ofNat]
    exact Nat.Coprime.mul (by decide) (Nat.Coprime.pow_left k (by decide))
  exact_mod_cast Rat.den_div_eq_of_coprime h3 hcop


theorem tempoResult_pos {unit : ℚ} {bpm : ℕ} {t : ℚ} (h0 : 0 ≤ unit)
    (h : tempoResult unit bpm = .ok t) : 0 < t := by
  simp only [tempoResult] at h
  by_cases h1 : bpm = 0
  · rw [if_pos h1] at h
    cases h
  · rw [if_neg h1] at h
    by_cases h2 : unit = 0
    · rw [if_pos h2] at h
      cases h
    · rw [if_neg h2] at h
      cases h
      have hb : (0 : ℚ) < bpm := by exact_mod_cast Nat.pos_of_ne_zero h1
      have hu : 0 < unit := lt_of_le_of_ne h0 (Ne.symm h2)
      exact div_pos (div_pos (by norm_num) hb) hu

theorem parse_tempo_pos {s : List Char} {t : ℚ} (h : parse_tempo s = .ok t) : 0 < t := by
  simp only [parse_tempo] at h
  cases hsf : splitFirst '=' s with
  | none =>
    simp only [hsf] at h
    by_cases h1 : (s.isEmpty || !isDigits s) = true
    · rw [if_pos h1] at h
      cases h
    · rw [if_neg h1] at h
      exact tempoResult_pos (by norm_num) h
  | some ub =>
    obtain ⟨u, b⟩ := ub
    simp only [hsf] at h
    by_cases h1 : (b.isEmpty || !isDigits b) = true
    · rw [if_pos h1] at h
      cases h
    · rw [if_neg h1] at h
      cases hsu : splitFirst '/' u with
      | none =>
        simp only [hsu] at h
        by_cases h2 : (u.isEmpty || !isDigits u) = true
        · rw [if_pos h2] at h
          cases h
        · rw [if_neg h2] at h
          exact tempoResult_pos (by positivity) h
      | some ac =>
        obtain ⟨a, c⟩ := ac
        simp only [hsu] at h
        by_cases h2 : (a.isEmpty || !isDigits a || c.isEmpty || !isDigits c) = true
        · rw [if_pos h2] at h
          cases h
        · rw [if_neg h2] at h
          by_cases h3 : digitsVal c = 0
          · rw [if_pos h3] at h
            cases h
          · rw [if_neg h3] at h
            exact tempoResult_pos (by positivity) h

theorem processLine_pos {s : CompState} {line : List Char} {s' : CompState}
    (h : processLine s line = .ok s')
    (hL : ∀ q, lineLValue line = some q → 0 < q)
    (hp : 0 < s.metadata.tempo ∧ 0 < s.metadata.default_note_length) :
    0 < s'.metadata.tempo ∧ 0 < s'.metadata.default_note_length := by
  simp only [processLine] at h
  by_cases he : (pyStrip (stripComment line)).isEmpty
  · rw [if_pos he] at h
    cases h
    exact hp
  · rw [if_neg he] at h
    by_cases hm : isMetaLine (pyStrip (stripComment line))
    · rw [if_pos hm] at h
      cases hl : pyStrip (stripComment line) with
      | nil =>
        rw [hl] at hm
        simp [isMetaLine] at hm
      | cons c l1 =>
        cases l1 with
        | nil =>
          rw [hl] at hm
          simp [isMetaLine] at hm
        | cons c2 rest =>
          rw [hl] at h hm
          simp only [isMetaLine, Bool.and_eq_true, beq_iff_eq] at hm
          obtain ⟨hup, hc2⟩ := hm
          simp only [metaStep] at h
          by_cases hK : c = 'K'
          · rw [if_pos hK] at h
            cases hpk : parse_meta_key s.metadata (pyStrip rest) with
            | error e => simp only [hpk] at h; cases h
            | ok md2 =>
              simp only [hpk] at h
              cases h
              simp only [parse_meta_key] at hpk
              split at hpk
              · cases hpk
              · cases hpk
                exact hp
          · rw [if_neg hK] at h
            by_cases hQ : c = 'Q'
            · rw [if_pos hQ] at h
              cases hpt : parse_tempo (pyStrip rest) with
              | error e => simp only [hpt] at h; cases h
              | ok t =>
                simp only [hpt] at h
                cases h
                exact ⟨parse_tempo_pos hpt, hp.2⟩
            · rw [if_neg hQ] at h
              by_cases hLc : c = 'L'
              · rw [if_pos hLc] at h
                cases hpf : pyFraction (pyStrip rest) with
                | error e => simp only [hpf] at h; cases h
                | ok q =>
                  simp only [hpf] at h
                  cases h
                  refine ⟨hp.1, ?_⟩
                  apply hL
                  simp only [lineLValue, hl]
                  rw [if_pos ⟨hLc, hc2⟩, hpf]
              · rw [if_neg hLc] at h
                cases h
                exact hp
    · rw [if_neg hm] at h
      obtain ⟨t1, t2⟩ := processTokens_tempo_dnl _ s s' h
      constructor
      · rw [t1]
        exact hp.1
      · rw [t2]
        exact hp.2

theorem runLines_pos :
    ∀ (lines : List (List Char)) (s s' : CompState),
      (∀ l ∈ lines, ∀ q, lineLValue l = some q → 0 < q) →
      0 < s.metadata.tempo ∧ 0 < s.metadata.default_note_length →
      runLines s lines = .ok s' →
      0 < s'.metadata.tempo ∧ 0 < s'.metadata.default_note_length := by
  intro lines
  induction lines with
  | nil =>
    intro s s' _ hp h
    cases h
    exact hp
  | cons l ls ih =>
    intro s s' hL hp h
    simp only [runLines] at h
    cases h1 : processLine s l with
    | error e => simp only [h1] at h; cases h
    | ok s2 =>
      simp only [h1] at h
      exact ih s2 s' (fun l2 hm => hL l2 (List.mem_cons_of_mem _ hm))
        (processLine_pos h1 (hL l (List.mem_cons_self _ _)) hp) h

/-- C7 (amended): the initial tempo (2) and default note length (1/4) are
strictly positive, and positivity of both is preserved through every line of
a compilation provided every `L:` metadata line carries a strictly positive
fraction.  Unamended the claim is false: the source installs an `L:` payload
without validation, so `L:0` makes `default_note_length` zero (see the
counterexample). -/
theorem C7_positivity_amended :
    (0 < initState.metadata.tempo ∧ 0 < initState.metadata.default_note_length) ∧
    ∀ (lines : List (List Char)) (s' : CompState),
      (∀ l ∈ lines, ∀ q, lineLValue l = some q → 0 < q) →
      runLines initState lines = .ok s' →
      0 < s'.metadata.tempo ∧ 0 < s'.metadata.default_note_length := by
  have hinit : 0 < initState.metadata.tempo ∧ 0 < initState.metadata.default_note_length :=
    ⟨by norm_num [initState], by norm_num [initState]⟩
  exact ⟨hinit, fun lines s' hL h => runLines_pos lines initState s' hL hinit h⟩

/-- Witness for C7: compiling the single line `L:1/2` (a positive `L` value)
from the initial state keeps both quantities strictly positive. -/
theorem C7_witness :
    0 < stateL12.metadata.tempo ∧ 0 < stateL12.metadata.default_note_length :=
  C7_positivity_amended.2 [['L', ':', '1', '/', '2']] stateL12
    (by
      intro l hl q hq
      simp only [List.mem_singleton] at hl
      subst hl
      rw [show lineLValue ['L', ':', '1', '/', '2'] = some (1 / 2 : ℚ) from by
        with_unfolding_all rfl] at hq
      cases hq
      norm_num)
    (by with_unfolding_all rfl)

theorem splitC_ne_nil : ∀ l : List Char, splitC l ≠ [] := by
  intro l
  cases l with
  | nil => simp [splitC]
  | cons c rest =>
    simp only [splitC]
    by_cases hc : c = ' '
    · rw [if_pos hc]
      simp
    · rw [if_neg hc]
      cases splitC rest with
      | nil => simp
      | cons t ts => simp

theorem nil_mem_splitC_tail :
    ∀ (pre suf : List Char), [] ∈ (splitC (pre ++ ' ' :: ' ' :: suf)).tail := by
  intro pre
  induction pre with
  | nil =>
    intro suf
    simp [splitC]
  | cons c pre' ih =>
    intro suf
    simp only [List.cons_append, splitC]
    by_cases hc : c = ' '
    · rw [if_pos hc]
      exact List.mem_of_mem_tail (ih suf)
    · rw [if_neg hc]
      cases hst : splitC (pre' ++ ' ' :: ' ' :: suf) with
      | nil => exact absurd hst (splitC_ne_nil _)
      | cons t ts =>
        have := ih suf
        rw [hst] at this
        simpa using this

theorem processToken_nil : ∀ s : CompState, processToken s [] = .error .emptyChord := by
  intro s
  with_unfolding_all rfl

theorem processTokens_err :
    ∀ (ts : List (List Char)) (s : CompState), [] ∈ ts →
      ∃ e, processTokens s ts = .error e := by
  intro ts
  induction ts with
  | nil =>
    intro s hm
    simp at hm
  | cons t ts' ih =>
    intro s hm
    rcases List.mem_cons.mp hm with hm | hm
    · cases hm
      exact ⟨.emptyChord, by simp [processTokens, processToken_nil s]⟩
    · cases hr : processToken s t with
      | error e => exact ⟨e, by simp [processTokens, hr]⟩
      | ok s2 =>
        obtain ⟨e, he⟩ := ih s2 hm
        exact ⟨e, by simp [processTokens, hr, he]⟩

theorem processLine_noteline_err (s : CompState) (line : List Char)
    (he : (pyStrip (stripComment line)).isEmpty = false)
    (hmeta : isMetaLine (pyStrip (stripComment line)) = false)
    (hsp : ∃ pre suf, pyStrip (stripComment line) = pre ++ ' ' :: ' ' :: suf) :
    ∃ e, processLine s line = .error e := by
  obtain ⟨pre, suf, hl⟩ := hsp
  have he' : ¬((pyStrip (stripComment line)).isEmpty = true) := by simp [he]
  have hm' : ¬(isMetaLine (pyStrip (stripComment line)) = true) := by simp [hmeta]
  simp only [processLine]
  rw [if_neg he', if_neg hm', hl]
  exact processTokens_err _ _ (List.mem_of_mem_tail (nil_mem_splitC_tail pre suf))

theorem runLines_line_err :
    ∀ (lines : List (List Char)) (s : CompState) (line : List Char), line ∈ lines →
      (∀ s2 : CompState, ∃ e, processLine s2 line = .error e) →
      ∃ e, runLines s lines = .error e := by
  intro lines
  induction lines with
  | nil =>
    intro s line hm _
    simp at hm
  | cons l ls ih =>
    intro s line hm hf
    rcases List.mem_cons.mp hm with hm | hm
    · cases hm
      obtain ⟨e, he⟩ := hf s
      exact ⟨e, by simp [runLines, he]⟩
    · cases hr : processLine s l with
      | error e => exact ⟨e, by simp [runLines, hr]⟩
      | ok s2 =>
        obtain ⟨e, he⟩ := ih s2 line hm hf
        exact ⟨e, by simp [runLines, hr, he]⟩

/-- C9 counterexample: the note line `C/0  D` contains two consecutive
spaces, yet compilation fails with the zero-division error raised by the
earlier token `C/0` (duration `/0` normalizes to `1/0`), not with
`EmptyChord`. -/
theorem C9_counterexample :
    abc_to_piano_roll [['C', '/', '0', ' ', ' ', 'D']] = .error .zeroDivision ∧
    decide (PyErr.zeroDivision = PyErr.emptyChord) = false := by
  constructor <;> with_unfolding_all rfl

/-- C9 (amended): a note line containing two consecutive spaces always aborts
the whole piece: splitting on single spaces yields an empty token, which is
wrapped as the empty chord `[]` in which the tokenizer finds zero notes, so
processing cannot reach the end of the line.  When no earlier token of the
line fails first the error is `EmptyChord` (second conjunct); an earlier
failing token aborts with its own error instead. -/
theorem C9_double_space_aborts :
    (∀ (lines : List (List Char)) (line : List Char),
      line ∈ lines →
      (pyStrip (stripComment line)).isEmpty = false →
      isMetaLine (pyStrip (stripComment line)) = false →
      (∃ pre suf, pyStrip (stripComment line) = pre ++ ' ' :: ' ' :: suf) →
      ∃ e, abc_to_piano_roll lines = .error e) ∧
    abc_to_piano_roll [['C', ' ', ' ', 'D']] = .error .emptyChord := by
  constructor
  · intro lines line hm he hmeta hsp
    obtain ⟨e, hrun⟩ := runLines_line_err lines initState line hm
      (fun s2 => processLine_noteline_err s2 line he hmeta hsp)
    exact ⟨e, by simp [abc_to_piano_roll, hrun]⟩
  · with_unfolding_all rfl

/-- Witness for C9: the single-line piece `C  C` (two consecutive spaces)
aborts with some error. -/
theorem C9_witness :
    ∃ e, abc_to_piano_roll [['C', ' ', ' ', 'C']] = .error e :=
  C9_double_space_aborts.1 [['C', ' ', ' ', 'C']] ['C', ' ', ' ', 'C']
    (List.mem_singleton_self _) (by with_unfolding_all rfl) (by with_unfolding_all rfl)
    ⟨['C'], ['C'], by with_unfolding_all rfl⟩


theorem digit_facts {c : Char} (h : c.isDigit = true) :
    c ≠ '/' ∧ c ≠ '-' ∧ c ≠ '+' := by
  refine ⟨?_, ?_, ?_⟩ <;> (rintro rfl; exact absurd h (by decide))

theorem isDigits_cons {c : Char} {r : List Char} (h : isDigits (c :: r) = true) :
    c.isDigit = true ∧ isDigits r = true := by
  rw [isDigits, List.all_cons, Bool.and_eq_true] at h
  exact h

theorem isDigits_no_slash {l : List Char} (h : isDigits l = true) : '/' ∉ l := by
  intro hm
  rw [isDigits] at h
  have := List.all_eq_true.mp h _ hm
  exact absurd this (by decide)

theorem splitFirst_none {x : Char} {l : List Char} (h : x ∉ l) : splitFirst x l = none := by
  induction l with
  | nil => rfl
  | cons c r ih =>
    have hcx : ¬(c = x) := fun hh => h (hh ▸ List.mem_cons_self c r)
    simp only [splitFirst]
    rw [if_neg hcx, ih (fun hm => h (List.mem_cons_of_mem _ hm))]

theorem splitFirst_append {x : Char} {a : List Char} (b : List Char) (h : x ∉ a) :
    splitFirst x (a ++ x :: b) = some (a, b) := by
  induction a with
  | nil => simp [splitFirst]
  | cons c a' ih =>
    have hcx : ¬(c = x) := fun hh => h (hh ▸ List.mem_cons_self c a')
    simp only [List.cons_append, splitFirst, List.append_eq]
    rw [if_neg hcx, ih (fun hm => h (List.mem_cons_of_mem _ hm))]

theorem pySign_digit_head {c : Char} (r : List Char) (hc : c.isDigit = true) :
    pySign (c :: r) = (1, c :: r) := by
  simp [pySign, (digit_facts hc).2.1, (digit_facts hc).2.2]

theorem pyFraction_digits {l : List Char} (h : isDigits l = true) (hne : l ≠ []) :
    pyFraction l = .ok ((digitsVal l : ℚ)) := by
  cases l with
  | nil => cases hne rfl
  | cons c r =>
    have hc := (isDigits_cons h).1
    simp only [pyFraction, pySign_digit_head r hc]
    rw [splitFirst_none (isDigits_no_slash h)]
    simp [h]

theorem pyFraction_frac {d1 d2 : List Char} (h1 : isDigits d1 = true) (hne1 : d1 ≠ [])
    (h2 : isDigits d2 = true) (hne2 : d2 ≠ []) (hz : digitsVal d2 ≠ 0) :
    pyFraction (d1 ++ '/' :: d2) = .ok ((digitsVal d1 : ℚ) / (digitsVal d2 : ℚ)) := by
  cases d1 with
  | nil => cases hne1 rfl
  | cons c r =>
    have hc := (isDigits_cons h1).1
    simp only [List.cons_append]
    simp only [pyFraction, pySign_digit_head (r ++ '/' :: d2) hc]
    rw [← List.cons_append, splitFirst_append d2 (isDigits_no_slash h1)]
    simp [h1, h2, hne2, hz, List.isEmpty_iff]

theorem hasSlash_append (a b : List Char) : hasSlash (a ++ b) = (hasSlash a || hasSlash b) := by
  induction a with
  | nil => simp [hasSlash]
  | cons c r ih => simp [hasSlash, ih, Bool.or_assoc]

theorem hasSlash_digits {l : List Char} (h : isDigits l = true) : hasSlash l = false := by
  induction l with
  | nil => rfl
  | cons c r ih =>
    obtain ⟨hc, hr⟩ := isDigits_cons h
    have hb : (c == '/') = false := by simp [(digit_facts hc).1]
    simp [hasSlash, hb, ih hr]

theorem lastCh_append_single (l : List Char) (c : Char) : lastCh (l ++ [c]) = some c := by
  induction l with
  | nil => rfl
  | cons a r ih => simp [lastCh, List.cons_append, ih]

theorem lastCh_isSome {b : List Char} (h : b ≠ []) : ∃ d, lastCh b = some d := by
  cases b with
  | nil => cases h rfl
  | cons c r =>
    simp only [lastCh]
    cases lastCh r with
    | none => exact ⟨c, rfl⟩
    | some d => exact ⟨d, rfl⟩

theorem lastCh_append_right (a : List Char) {b : List Char} (h : b ≠ []) :
    lastCh (a ++ b) = lastCh b := by
  induction a with
  | nil => rfl
  | cons x r ih =>
    obtain ⟨d, hd⟩ := lastCh_isSome h
    simp only [List.cons_append, lastCh, List.append_eq, ih, hd]

theorem lastCh_mem : ∀ {l : List Char} {c : Char}, lastCh l = some c → c ∈ l := by
  intro l
  induction l with
  | nil =>
    intro c h
    cases h
  | cons a r ih =>
    intro c h
    simp only [lastCh] at h
    cases hr : lastCh r with
    | none =>
      rw [hr] at h
      cases h
      exact List.mem_cons_self _ _
    | some d =>
      rw [hr] at h
      cases h
      exact List.mem_cons_of_mem _ (ih hr)


theorem valueNormalize_slash_digits {ds : List Char} (hne : ds ≠ []) :
    valueNormalize ('/' :: ds) = '1' :: '/' :: ds := by
  have hs : hasSlash ('/' :: ds) = true := by simp [hasSlash]
  have hne' : ¬('/' :: ds = ['/']) := by simp [hne]
  simp only [valueNormalize]
  rw [if_pos hs, if_neg hne', if_pos (show ('/' :: ds).head? = some '/' from rfl)]

theorem noteValueRaw_leading_slash {ds : List Char} (h : isDigits ds = true)
    (hne : ds ≠ []) (hz : digitsVal ds ≠ 0) :
    noteValueRaw (some ('/' :: ds)) = .ok (1 / (digitsVal ds : ℚ)) := by
  simp only [noteValueRaw, valueNormalize_slash_digits hne]
  rw [show ('1' :: '/' :: ds) = ['1'] ++ '/' :: ds from rfl,
    pyFraction_frac (by decide) (by decide) h hne hz,
    show digitsVal ['1'] = 1 from rfl]
  norm_num

theorem noteValueRaw_trailing_slash {ds : List Char} (h : isDigits ds = true)
    (hne : ds ≠ []) :
    noteValueRaw (some (ds ++ ['/'])) = .ok ((digitsVal ds : ℚ) / 2) := by
  obtain ⟨c, r, rfl⟩ : ∃ c r, ds = c :: r := by
    cases ds with
    | nil => cases hne rfl
    | cons c r => exact ⟨c, r, rfl⟩
  have hc := (isDigits_cons h).1
  have hs : hasSlash ((c :: r) ++ ['/']) = true := by
    simp [hasSlash_append, hasSlash]
  have hne1 : ¬((c :: r) ++ ['/'] = ['/']) := by
    simp [List.append_left_eq_self]
  have hhead : ¬(((c :: r) ++ ['/']).head? = some '/') := by
    simp [List.cons_append, (digit_facts hc).1]
  have hlast : lastCh ((c :: r) ++ ['/']) = some '/' := lastCh_append_single _ _
  simp only [noteValueRaw, valueNormalize]
  rw [if_pos hs, if_neg hne1, if_neg hhead, if_pos hlast, List.append_assoc,
    show (['/'] : List Char) ++ ['2'] = '/' :: ['2'] from rfl,
    pyFraction_frac h hne (by decide) (by decide) (by decide),
    show digitsVal ['2'] = 2 from rfl]
  norm_num

theorem noteValueRaw_digits {ds : List Char} (h : isDigits ds = true) (hne : ds ≠ []) :
    noteValueRaw (some ds) = .ok ((digitsVal ds : ℚ)) := by
  simp only [noteValueRaw, valueNormalize, hasSlash_digits h]
  simp only [Bool.false_eq_true, if_false]
  exact pyFraction_digits h hne

theorem noteValueRaw_full_frac {ds es : List Char} (h1 : isDigits ds = true)
    (hne1 : ds ≠ []) (h2 : isDigits es = true) (hne2 : es ≠ [])
    (hz : digitsVal es ≠ 0) :
    noteValueRaw (some (ds ++ '/' :: es)) =
      .ok ((digitsVal ds : ℚ) / (digitsVal es : ℚ)) := by
  obtain ⟨c, r, rfl⟩ : ∃ c r, ds = c :: r := by
    cases ds with
    | nil => cases hne1 rfl
    | cons c r => exact ⟨c, r, rfl⟩
  have hc := (isDigits_cons h1).1
  have hs : hasSlash ((c :: r) ++ '/' :: es) = true := by
    simp [hasSlash_append, hasSlash]
  have hne' : ¬((c :: r) ++ '/' :: es = ['/']) := by
    simp [List.cons_append, List.cons.injEq, (digit_facts hc).1]
  have hhead : ¬(((c :: r) ++ '/' :: es).head? = some '/') := by
    simp [List.cons_append, (digit_facts hc).1]
  obtain ⟨d, hd⟩ := lastCh_isSome hne2
  have hdd : d.isDigit = true := by
    rw [isDigits] at h2
    exact List.all_eq_true.mp h2 _ (lastCh_mem hd)
  have hlast : ¬(lastCh ((c :: r) ++ '/' :: es) = some '/') := by
    rw [lastCh_append_right _ (show ('/' :: es : List Char) ≠ [] by simp)]
    simp only [lastCh, hd]
    simp [(digit_facts hdd).1]
  simp only [noteValueRaw, valueNormalize]
  rw [if_pos hs, if_neg hne', if_neg hhead, if_neg hlast]
  exact pyFraction_frac h1 hne1 h2 hne2 hz

/-- C4: the raw duration conversion of the note grammar, before scaling:
absent duration is 1, `/` is 1/2, `/n` is `1/n`, `n/` is `n/2`, a bare
integer is itself, and `n/m` is `n/m`, all as exact rationals (a zero
denominator raises instead); and every successful `parse_abc_note` result
carries exactly this raw rational multiplied by the context's current
`default_note_length`. -/
theorem C4_duration_shorthands :
    noteValueRaw none = .ok 1 ∧
    noteValueRaw (some ['/']) = .ok (1 / 2) ∧
    (∀ ds, isDigits ds = true → ds ≠ [] → digitsVal ds ≠ 0 →
      noteValueRaw (some ('/' :: ds)) = .ok (1 / (digitsVal ds : ℚ))) ∧
    (∀ ds, isDigits ds = true → ds ≠ [] →
      noteValueRaw (some (ds ++ ['/'])) = .ok ((digitsVal ds : ℚ) / 2)) ∧
    (∀ ds, isDigits ds = true → ds ≠ [] →
      noteValueRaw (some ds) = .ok ((digitsVal ds : ℚ))) ∧
    (∀ ds es, isDigits ds = true → ds ≠ [] → isDigits es = true → es ≠ [] →
      digitsVal es ≠ 0 →
      noteValueRaw (some (ds ++ '/' :: es)) =
        .ok ((digitsVal ds : ℚ) / (digitsVal es : ℚ))) ∧
    (∀ (md : PyMetadata) (s : List Char) (c : NoteComponents),
      parse_abc_note md s = .ok c →
      ∃ acc p oct v q, noteMatch s = some (acc, p, oct, v) ∧ noteValueRaw v = .ok q ∧
        c = ⟨acc, p, oct, q * md.default_note_length⟩) := by
  refine ⟨by with_unfolding_all rfl, by with_unfolding_all rfl,
    fun ds h hne hz => noteValueRaw_leading_slash h hne hz,
    fun ds h hne => noteValueRaw_trailing_slash h hne,
    fun ds h hne => noteValueRaw_digits h hne,
    fun ds es h1 hne1 h2 hne2 hz => noteValueRaw_full_frac h1 hne1 h2 hne2 hz, ?_⟩
  intro md s c h
  simp only [parse_abc_note] at h
  cases hm : noteMatch s with
  | none =>
    simp only [hm] at h
    cases h
  | some quad =>
    obtain ⟨acc, p, oct, v⟩ := quad
    simp only [hm] at h
    cases hv : noteValueRaw v with
    | error e =>
      simp only [hv] at h
      cases h
    | ok q =>
      simp only [hv] at h
      cases h
      exact ⟨acc, p, oct, v, q, rfl, hv, rfl⟩

/-- Witness for C4: the shorthand conjuncts applied at `/4`, `3/` and `3/4`. -/
theorem C4_witness :
    noteValueRaw (some ['/', '4']) = .ok (1 / (digitsVal ['4'] : ℚ)) ∧
    noteValueRaw (some (['3'] ++ ['/'])) = .ok ((digitsVal ['3'] : ℚ) / 2) ∧
    noteValueRaw (some (['3'] ++ '/' :: ['4'])) =
      .ok ((digitsVal ['3'] : ℚ) / (digitsVal ['4'] : ℚ)) :=
  ⟨C4_duration_shorthands.2.2.1 ['4'] rfl (by decide) (by decide),
   C4_duration_shorthands.2.2.2.1 ['3'] rfl (by decide),
   C4_duration_shorthands.2.2.2.2.2.1 ['3'] ['4'] rfl (by decide) rfl (by decide)
     (by decide)⟩


end AbcMidi
